import Mathlib

/-!
Verification of the procedural mind-map generator in `src/app/page.tsx`
(`generateMindMap` and its helpers `seededRandom` and `addRing`).

The JavaScript number arithmetic of the generator is embedded over the real
numbers `ℝ` (idealised, exact arithmetic).  The JavaScript remainder
operator `%` is modelled by `jsMod`, which truncates the quotient toward
zero, so that the remainder carries the sign of the dividend — exactly the
semantics of `%` on JavaScript numbers for finite operands.
-/

namespace MindMapGen

open scoped Classical

noncomputable section

/-- Truncation toward zero, as performed by JavaScript when `%` computes
`x - y * trunc (x / y)`. -/
def jsTrunc (x : ℝ) : ℤ := if 0 ≤ x then ⌊x⌋ else ⌈x⌉

/-- The JavaScript remainder operator `x % y` for finite operands:
`x - y * trunc (x / y)`; the result has the sign of the dividend `x`. -/
def jsMod (x y : ℝ) : ℝ := x - y * jsTrunc (x / y)

/-- One update of the generator state, from `seededRandom` in the source:
`seedValue = (seedValue * 9301 + 49297) % 233280`. -/
def lcgStep (s : ℝ) : ℝ := jsMod (s * 9301 + 49297) 233280

/-- The value returned by one call of `seededRandom` when the state before
the call is `s`: the updated state divided by `233280`. -/
def lcgValue (s : ℝ) : ℝ := lcgStep s / 233280

/-- The configuration record `CONFIG` consumed by `generateMindMap`.
Ring counts are integers; the remaining fields are numbers. -/
structure Config where
  centralNodes : ℤ
  middleNodes : ℤ
  outerNodes : ℤ
  connectionDistance : ℝ
  connectionProbability : ℝ
  nodeSize : ℝ
  lineOpacity : ℝ
  bloomIntensity : ℝ
  rotationSpeed : ℝ

/-- A generated node: a 3D position. -/
structure Node where
  position : ℝ × ℝ × ℝ

/-- A generated connection: the two endpoint positions (called `from` and
`to` in the source) and the derived opacity. -/
structure Connection where
  fromPos : ℝ × ℝ × ℝ
  toPos : ℝ × ℝ × ℝ
  opacity : ℝ

/-- The aggregate `{ nodes, connections }` returned by `generateMindMap`. -/
structure GenerationResult where
  nodes : List Node
  connections : List Connection

/-- Radius closure of the central ring: `seededRandom() * 1.5 + 0.5`,
as a function of the drawn value. -/
def centralRadiusFn (v : ℝ) : ℝ := v * 1.5 + 0.5

/-- Height closure of the central ring: `(seededRandom() - 0.5) * 2`. -/
def centralHeightFn (v : ℝ) : ℝ := (v - 0.5) * 2

/-- Radius closure of the middle ring: `seededRandom() * 2 + 3`. -/
def middleRadiusFn (v : ℝ) : ℝ := v * 2 + 3

/-- Height closure of the middle ring: `(seededRandom() - 0.5) * 2`. -/
def middleHeightFn (v : ℝ) : ℝ := (v - 0.5) * 2

/-- Radius closure of the outer ring: `seededRandom() * 4 + 5`. -/
def outerRadiusFn (v : ℝ) : ℝ := v * 4 + 5

/-- Height closure of the outer ring: `(seededRandom() - 0.5) * 6`. -/
def outerHeightFn (v : ℝ) : ℝ := (v - 0.5) * 6

/-- The `addRing` helper of the source.  Each loop iteration draws, in this
order, the angle value, the radius value and the height value from the
shared sequence (each of the closures passed to `addRing` in the source
performs exactly one `seededRandom()` call, applied here as `radiusFn` /
`heightFn` to the drawn value), and appends the node
`[cos(a) * r, h, sin(a) * r]` with `a = draw * π * 2`.
Returns the list of nodes of the ring together with the final state. -/
def addRing (radiusFn heightFn : ℝ → ℝ) : ℕ → ℝ → List Node × ℝ
  | 0, s => ([], s)
  | n + 1, s =>
    let s1 := lcgStep s
    let a := s1 / 233280 * Real.pi * 2
    let s2 := lcgStep s1
    let r := radiusFn (s2 / 233280)
    let s3 := lcgStep s2
    let h := heightFn (s3 / 233280)
    let rest := addRing radiusFn heightFn n s3
    (⟨(Real.cos a * r, h, Real.sin a * r)⟩ :: rest.1, rest.2)

/-- Default node used with `List.getD`; edge selection only reads indices
that are in bounds, so the default is never observed. -/
def defaultNode : Node := ⟨(0, 0, 0)⟩

/-- The Euclidean distance computed in edge selection:
`Math.sqrt(pow(dx,2) + pow(dy,2) + pow(dz,2))`. -/
def dist3 (p q : ℝ × ℝ × ℝ) : ℝ :=
  Real.sqrt ((p.1 - q.1) ^ 2 + (p.2.1 - q.2.1) ^ 2 + (p.2.2 - q.2.2) ^ 2)

/-- The index pairs visited by the nested `forEach` loops, in iteration
order: outer index `i`, inner index `j`, pairs with `i ≥ j` skipped. -/
def pairList (n : ℕ) : List (ℕ × ℕ) :=
  (List.range n).flatMap fun i =>
    ((List.range n).filter fun j => decide (i < j)).map fun j => (i, j)

/-- One step of edge selection for the visited pair `ij`, from the body of
the nested `forEach` loops.  The `&&` of the source short-circuits: the
`seededRandom()` draw happens only when `d < connectionDistance` holds. -/
def edgeStep (cfg : Config) (nodes : List Node) (st : ℝ × List Connection)
    (ij : ℕ × ℕ) : ℝ × List Connection :=
  let n := nodes.getD ij.1 defaultNode
  let m := nodes.getD ij.2 defaultNode
  let d := dist3 n.position m.position
  if d < cfg.connectionDistance then
    let s1 := lcgStep st.1
    if s1 / 233280 > cfg.connectionProbability then
      (s1, st.2 ++ [⟨n.position, m.position,
        max 0.2 (1 - d / cfg.connectionDistance)⟩])
    else (s1, st.2)
  else st

/-- The node-production phase of `generateMindMap`: the three `addRing`
calls in their fixed order, sharing one generator state.  Returns the
full node list and the state after the third ring. -/
def ringPhase (cfg : Config) (seed : ℝ) : List Node × ℝ :=
  let r1 := addRing centralRadiusFn centralHeightFn cfg.centralNodes.toNat seed
  let r2 := addRing middleRadiusFn middleHeightFn cfg.middleNodes.toNat r1.2
  let r3 := addRing outerRadiusFn outerHeightFn cfg.outerNodes.toNat r2.2
  (r1.1 ++ (r2.1 ++ r3.1), r3.2)

/-- The edge-selection phase of `generateMindMap`: a fold of `edgeStep`
over the visited pairs, starting from the post-ring state and an empty
connection list.  Returns the final state and the connection list. -/
def edgePhase (cfg : Config) (nodes : List Node) (s : ℝ) :
    ℝ × List Connection :=
  (pairList nodes.length).foldl (edgeStep cfg nodes) (s, [])

/-- The entry point `generateMindMap(config, seed)` of the source. -/
def generateMindMap (cfg : Config) (seed : ℝ) : GenerationResult :=
  let rp := ringPhase cfg seed
  ⟨rp.1, (edgePhase cfg rp.1 rp.2).2⟩

/-! ### A recursive characterisation of the edge-selection fold

`edgeStep` is a fold step over a pair `(state, connections)`.  To reason
about it we split it into the connection(s) emitted at one visited pair
(`pairSel`, at most one, recorded as the index pair) and the state update
(`pairNextState`), and chain these along the pair list (`emitRun`). -/

/-- The connection constructed for the visited pair `ij` (when emitted). -/
def mkConn (cfg : Config) (nodes : List Node) (ij : ℕ × ℕ) : Connection :=
  let n := nodes.getD ij.1 defaultNode
  let m := nodes.getD ij.2 defaultNode
  ⟨n.position, m.position,
    max 0.2 (1 - dist3 n.position m.position / cfg.connectionDistance)⟩

/-- The index pairs (zero or one) for which pair `ij` emits a connection
when the state before the pair is `s`. -/
def pairSel (cfg : Config) (nodes : List Node) (s : ℝ) (ij : ℕ × ℕ) :
    List (ℕ × ℕ) :=
  if dist3 (nodes.getD ij.1 defaultNode).position
      (nodes.getD ij.2 defaultNode).position < cfg.connectionDistance then
    (if lcgStep s / 233280 > cfg.connectionProbability then [ij] else [])
  else []

/-- The generator state after visiting pair `ij` from state `s`: advanced
exactly when the distance test passes (the short-circuited `&&`). -/
def pairNextState (cfg : Config) (nodes : List Node) (s : ℝ) (ij : ℕ × ℕ) :
    ℝ :=
  if dist3 (nodes.getD ij.1 defaultNode).position
      (nodes.getD ij.2 defaultNode).position < cfg.connectionDistance then
    lcgStep s
  else s

/-- Chaining `pairSel` / `pairNextState` along a list of visited pairs:
final state and emitted index pairs, in emission order. -/
def emitRun (cfg : Config) (nodes : List Node) :
    List (ℕ × ℕ) → ℝ → ℝ × List (ℕ × ℕ)
  | [], s => (s, [])
  | ij :: t, s =>
    let rest := emitRun cfg nodes t (pairNextState cfg nodes s ij)
    (rest.1, pairSel cfg nodes s ij ++ rest.2)

/-- The number of visited pairs in `l` whose distance passes the
`connectionDistance` test — i.e. the number of draws edge selection takes
from the shared sequence while visiting `l`. -/
def closeCount (cfg : Config) (nodes : List Node) : List (ℕ × ℕ) → ℕ
  | [] => 0
  | ij :: t =>
    (if dist3 (nodes.getD ij.1 defaultNode).position
        (nodes.getD ij.2 defaultNode).position < cfg.connectionDistance
     then 1 else 0) + closeCount cfg nodes t

/-- The index pairs at which `generateMindMap cfg seed` emits its
connections, in emission order. -/
def connPairs (cfg : Config) (seed : ℝ) : List (ℕ × ℕ) :=
  let rp := ringPhase cfg seed
  (emitRun cfg rp.1 (pairList rp.1.length) rp.2).2


/-- The planar radius `sqrt (x² + z²)` of a position `(x, y, z)`. -/
def planarRadius (p : ℝ × ℝ × ℝ) : ℝ := Real.sqrt (p.1 ^ 2 + p.2.2 ^ 2)


/-! ### Concrete inputs used to exhibit runs of the generator -/

/-- Two central nodes, `connectionDistance = 1`, rejection threshold `0`. -/
def cfgPair : Config := ⟨2, 0, 0, 1, 0, 0.08, 0.3, 0, 0.005⟩

/-- Two central nodes and `connectionDistance = 0`. -/
def cfgZeroCd : Config := ⟨2, 0, 0, 0, 0.35, 0.08, 0.3, 0, 0.005⟩

/-- All ring counts zero or negative. -/
def cfgNeg : Config := ⟨0, -3, 0, 4.3, 0.35, 0.08, 0.3, 0, 0.005⟩

/-- Two central nodes and `connectionProbability = 1`. -/
def cfgProb : Config := ⟨2, 0, 0, 4.3, 1, 0.08, 0.3, 0, 0.005⟩

/-- A single central node, otherwise the repository `CONFIG` values. -/
def cfgOne : Config := ⟨1, 0, 0, 4.3, 0.35, 0.08, 0.3, 0, 0.005⟩

/-- A real fixed point of the generator step:
`(sFix * 9301 + 49297) % 233280 = sFix` (the truncated quotient is 1).
From this seed every draw returns the same value `sFix / 233280`, so all
nodes of a ring coincide. -/
def sFix : ℝ := 183983 / 9300

/-- The node produced (twice) by the central ring from seed `sFix`. -/
def nodeFix : Node :=
  ⟨(Real.cos (sFix / 233280 * Real.pi * 2) * (sFix / 233280 * 1.5 + 0.5),
    (sFix / 233280 - 0.5) * 2,
    Real.sin (sFix / 233280 * Real.pi * 2) * (sFix / 233280 * 1.5 + 0.5))⟩

/-- The single connection emitted by `generateMindMap cfgPair sFix`:
coincident endpoints, distance `0`, opacity exactly `1`. -/
def connFix : Connection := ⟨nodeFix.position, nodeFix.position, 1⟩

/-! ### NaN-propagation model

JavaScript numbers extended with NaN: `none` is NaN, `some x` a finite
value.  Every arithmetic operation, `Math.cos`, `Math.sin`, `Math.sqrt`
and `%` propagates NaN (an infinite seed also degenerates to NaN at its
first `%`, since `Infinity % 233280` is NaN), and every comparison with
NaN is false.  This mirrors `generateMindMap` exactly, and agrees with
the real-valued embedding on `some` values; it exists to settle what the
source does on a non-finite seed. -/

/-- Applies a unary JavaScript operation, propagating NaN. -/
def liftJ1 (f : ℝ → ℝ) : Option ℝ → Option ℝ
  | some x => some (f x)
  | none => none

/-- Applies a binary JavaScript operation, propagating NaN. -/
def liftJ2 (f : ℝ → ℝ → ℝ) : Option ℝ → Option ℝ → Option ℝ
  | some x, some y => some (f x y)
  | _, _ => none

/-- `seededRandom`'s state update on NaN-aware numbers. -/
def lcgStepN : Option ℝ → Option ℝ := liftJ1 lcgStep

/-- A node of the NaN-aware model. -/
structure NodeN where
  position : Option ℝ × Option ℝ × Option ℝ

/-- A connection of the NaN-aware model. -/
structure ConnectionN where
  fromPos : Option ℝ × Option ℝ × Option ℝ
  toPos : Option ℝ × Option ℝ × Option ℝ
  opacity : Option ℝ

/-- `addRing` on NaN-aware numbers. -/
def addRingN (radiusFn heightFn : ℝ → ℝ) :
    ℕ → Option ℝ → List NodeN × Option ℝ
  | 0, s => ([], s)
  | n + 1, s =>
    let s1 := lcgStepN s
    let a := liftJ1 (fun x => x / 233280 * Real.pi * 2) s1
    let s2 := lcgStepN s1
    let r := liftJ1 (fun x => radiusFn (x / 233280)) s2
    let s3 := lcgStepN s2
    let h := liftJ1 (fun x => heightFn (x / 233280)) s3
    let rest := addRingN radiusFn heightFn n s3
    (⟨(liftJ2 (fun x y => Real.cos x * y) a r, h,
       liftJ2 (fun x y => Real.sin x * y) a r)⟩ :: rest.1, rest.2)

/-- Default node of the NaN-aware model for `List.getD`. -/
def defaultNodeN : NodeN := ⟨(some 0, some 0, some 0)⟩

/-- The edge-selection distance on NaN-aware numbers. -/
def dist3N (p q : Option ℝ × Option ℝ × Option ℝ) : Option ℝ :=
  liftJ1 Real.sqrt
    (liftJ2 (fun x y => x + y)
      (liftJ2 (fun x y => x + y)
        (liftJ1 (fun x => x ^ 2) (liftJ2 (fun x y => x - y) p.1 q.1))
        (liftJ1 (fun x => x ^ 2) (liftJ2 (fun x y => x - y) p.2.1 q.2.1)))
      (liftJ1 (fun x => x ^ 2) (liftJ2 (fun x y => x - y) p.2.2 q.2.2)))

/-- A JavaScript `<` against a finite threshold: false on NaN. -/
def jlt (a : Option ℝ) (b : ℝ) : Prop := ∃ x, a = some x ∧ x < b

/-- A JavaScript `>` against a finite threshold: false on NaN. -/
def jgt (a : Option ℝ) (b : ℝ) : Prop := ∃ x, a = some x ∧ b < x

/-- One step of edge selection on NaN-aware numbers. -/
def edgeStepN (cfg : Config) (nodes : List NodeN)
    (st : Option ℝ × List ConnectionN) (ij : ℕ × ℕ) :
    Option ℝ × List ConnectionN :=
  let n := nodes.getD ij.1 defaultNodeN
  let m := nodes.getD ij.2 defaultNodeN
  let d := dist3N n.position m.position
  if jlt d cfg.connectionDistance then
    let s1 := lcgStepN st.1
    if jgt (liftJ1 (fun x => x / 233280) s1) cfg.connectionProbability then
      (s1, st.2 ++ [⟨n.position, m.position,
        liftJ1 (fun dd => max 0.2 (1 - dd / cfg.connectionDistance)) d⟩])
    else (s1, st.2)
  else st

/-- `generateMindMap` on NaN-aware numbers: node list and connections. -/
def generateMindMapN (cfg : Config) (seed : Option ℝ) :
    List NodeN × List ConnectionN :=
  let r1 := addRingN centralRadiusFn centralHeightFn cfg.centralNodes.toNat
    seed
  let r2 := addRingN middleRadiusFn middleHeightFn cfg.middleNodes.toNat r1.2
  let r3 := addRingN outerRadiusFn outerHeightFn cfg.outerNodes.toNat r2.2
  let nodes := r1.1 ++ (r2.1 ++ r3.1)
  (nodes, ((pairList nodes.length).foldl (edgeStepN cfg nodes) (r3.2, [])).2)

/-! ### Basic facts about `jsMod` and the generator state -/

theorem jsTrunc_of_nonneg {x : ℝ} (h : 0 ≤ x) : jsTrunc x = ⌊x⌋ := by
  simp [jsTrunc, h]

/-- Evaluation rule for `jsMod` at a nonnegative dividend, with the
truncated quotient `k` supplied explicitly. -/
theorem jsMod_eq {x y : ℝ} (k : ℤ) (hy : 0 < y) (hx : 0 ≤ x)
    (h1 : (k : ℝ) * y ≤ x) (h2 : x < ((k : ℝ) + 1) * y) :
    jsMod x y = x - k * y := by
  have hq : 0 ≤ x / y := div_nonneg hx hy.le
  have hfloor : ⌊x / y⌋ = k := by
    rw [Int.floor_eq_iff]
    constructor
    · rw [le_div_iff₀ hy]
      exact h1
    · rw [div_lt_iff₀ hy]
      exact h2
  rw [jsMod, jsTrunc_of_nonneg hq, hfloor]
  ring

/-- For a nonnegative dividend and positive divisor, `jsMod` lands in
`[0, y)`. -/
theorem jsMod_bounds {x y : ℝ} (hy : 0 < y) (hx : 0 ≤ x) :
    0 ≤ jsMod x y ∧ jsMod x y < y := by
  have hq : 0 ≤ x / y := div_nonneg hx hy.le
  have hrw : jsMod x y = y * Int.fract (x / y) := by
    rw [jsMod, jsTrunc_of_nonneg hq, Int.fract]
    field_simp
  constructor
  · rw [hrw]
    exact mul_nonneg hy.le (Int.fract_nonneg _)
  · rw [hrw]
    calc y * Int.fract (x / y) < y * 1 :=
          (mul_lt_mul_left hy).mpr (Int.fract_lt_one _)
    _ = y := mul_one y

/-- From a nonnegative state, one generator step lands in `[0, 233280)`. -/
theorem lcgStep_bounds {s : ℝ} (hs : 0 ≤ s) :
    0 ≤ lcgStep s ∧ lcgStep s < 233280 := by
  have hx : (0 : ℝ) ≤ s * 9301 + 49297 := by positivity
  exact jsMod_bounds (by norm_num) hx

/-- From a nonnegative state, the drawn value lands in `[0, 1)`. -/
theorem lcgValue_bounds {s : ℝ} (hs : 0 ≤ s) :
    0 ≤ lcgValue s ∧ lcgValue s < 1 := by
  obtain ⟨h0, h1⟩ := lcgStep_bounds hs
  constructor
  · exact div_nonneg h0 (by norm_num)
  · rw [lcgValue, div_lt_one (by norm_num)]
    exact h1

theorem edgeStep_eq (cfg : Config) (nodes : List Node) (s : ℝ)
    (cs : List Connection) (ij : ℕ × ℕ) :
    edgeStep cfg nodes (s, cs) ij =
      (pairNextState cfg nodes s ij,
       cs ++ (pairSel cfg nodes s ij).map (mkConn cfg nodes)) := by
  by_cases hd : dist3 (nodes.getD ij.1 defaultNode).position
      (nodes.getD ij.2 defaultNode).position < cfg.connectionDistance
  · by_cases hv : lcgStep s / 233280 > cfg.connectionProbability
    · simp only [edgeStep, pairNextState, pairSel, mkConn, if_pos hd, if_pos hv,
        List.map_cons, List.map_nil]
    · simp only [edgeStep, pairNextState, pairSel, if_pos hd, if_neg hv,
        List.map_nil, List.append_nil]
  · simp only [edgeStep, pairNextState, pairSel, if_neg hd,
      List.map_nil, List.append_nil]

theorem edgeFold_emitRun (cfg : Config) (nodes : List Node) :
    ∀ (l : List (ℕ × ℕ)) (s : ℝ) (cs : List Connection),
      l.foldl (edgeStep cfg nodes) (s, cs) =
        ((emitRun cfg nodes l s).1,
         cs ++ ((emitRun cfg nodes l s).2).map (mkConn cfg nodes)) := by
  intro l
  induction l with
  | nil => intro s cs; simp [emitRun]
  | cons ij t ih =>
    intro s cs
    rw [List.foldl_cons, edgeStep_eq, ih]
    simp [emitRun]

/-- The connections of the generation result are exactly the emitted index
pairs, instantiated with the endpoint positions and derived opacity. -/
theorem generateMindMap_connections (cfg : Config) (seed : ℝ) :
    (generateMindMap cfg seed).connections =
      (connPairs cfg seed).map (mkConn cfg (ringPhase cfg seed).1) := by
  rw [generateMindMap, connPairs, edgePhase, edgeFold_emitRun]
  simp

/-- Every emitted index pair is among the visited pairs. -/
theorem emitRun_sublist (cfg : Config) (nodes : List Node) :
    ∀ (l : List (ℕ × ℕ)) (s : ℝ), List.Sublist (emitRun cfg nodes l s).2 l := by
  intro l
  induction l with
  | nil => intro s; simp [emitRun]
  | cons ij t ih =>
    intro s
    simp only [emitRun]
    by_cases hd : dist3 (nodes.getD ij.1 defaultNode).position
        (nodes.getD ij.2 defaultNode).position < cfg.connectionDistance
    · by_cases hv : lcgStep s / 233280 > cfg.connectionProbability
      · simp only [pairSel, if_pos hd, if_pos hv, List.singleton_append]
        exact (ih _).cons₂ ij
      · simp only [pairSel, if_pos hd, if_neg hv, List.nil_append]
        exact (ih _).cons ij
    · simp only [pairSel, if_neg hd, List.nil_append]
      exact (ih _).cons ij

/-- Every emitted index pair passed the distance test. -/
theorem emitRun_close (cfg : Config) (nodes : List Node) :
    ∀ (l : List (ℕ × ℕ)) (s : ℝ) (ij : ℕ × ℕ),
      ij ∈ (emitRun cfg nodes l s).2 →
      dist3 (nodes.getD ij.1 defaultNode).position
        (nodes.getD ij.2 defaultNode).position < cfg.connectionDistance := by
  intro l
  induction l with
  | nil => intro s ij h; simp [emitRun] at h
  | cons kl t ih =>
    intro s ij h
    simp only [emitRun] at h
    rcases List.mem_append.mp h with h1 | h2
    · by_cases hd : dist3 (nodes.getD kl.1 defaultNode).position
          (nodes.getD kl.2 defaultNode).position < cfg.connectionDistance
      · have hik : ij = kl := by
          by_cases hv : lcgStep s / 233280 > cfg.connectionProbability
          · simp only [pairSel, if_pos hd, if_pos hv, List.mem_singleton] at h1
            exact h1
          · simp only [pairSel, if_pos hd, if_neg hv, List.not_mem_nil] at h1
        rw [hik]
        exact hd
      · simp only [pairSel, if_neg hd, List.not_mem_nil] at h1
    · exact ih _ ij h2

/-- The final state of edge selection advances the shared sequence exactly
once per visited pair passing the distance test, in iteration order. -/
theorem emitRun_state (cfg : Config) (nodes : List Node) :
    ∀ (l : List (ℕ × ℕ)) (s : ℝ),
      (emitRun cfg nodes l s).1 = lcgStep^[closeCount cfg nodes l] s := by
  intro l
  induction l with
  | nil => intro s; simp [emitRun, closeCount]
  | cons ij t ih =>
    intro s
    simp only [emitRun, closeCount, pairNextState]
    by_cases hd : dist3 (nodes.getD ij.1 defaultNode).position
        (nodes.getD ij.2 defaultNode).position < cfg.connectionDistance
    · rw [if_pos hd, if_pos hd, ih, add_comm 1 (closeCount cfg nodes t),
        Function.iterate_succ_apply]
    · rw [if_neg hd, if_neg hd, ih, zero_add]

/-! ### Facts about the visited-pair list -/

theorem pairList_mem {n : ℕ} {ij : ℕ × ℕ} (h : ij ∈ pairList n) :
    ij.1 < ij.2 ∧ ij.2 < n := by
  rw [pairList, List.mem_flatMap] at h
  obtain ⟨i, _, hmap⟩ := h
  rw [List.mem_map] at hmap
  obtain ⟨j, hj, rfl⟩ := hmap
  rw [List.mem_filter] at hj
  refine ⟨by simpa using hj.2, ?_⟩
  simpa using List.mem_range.mp hj.1

theorem pairList_nodup (n : ℕ) : (pairList n).Nodup := by
  rw [pairList]
  refine List.nodup_flatMap.mpr ⟨?_, ?_⟩
  · intro i _
    refine List.Nodup.map ?_ (List.Nodup.filter _ (List.nodup_range n))
    intro a b hab
    simpa using hab
  · refine List.Pairwise.imp ?_ (List.nodup_range n)
    intro a1 a2 hne x h1 h2
    rw [List.mem_map] at h1 h2
    obtain ⟨b1, _, rfl⟩ := h1
    obtain ⟨b2, _, heq⟩ := h2
    exact hne (congrArg Prod.fst heq).symm

/-! ### Facts about the ring-population phase -/

theorem planarRadius_cos_sin (a r h : ℝ) :
    planarRadius (Real.cos a * r, h, Real.sin a * r) = |r| := by
  have hsum : (Real.cos a * r) ^ 2 + (Real.sin a * r) ^ 2 = r ^ 2 := by
    have hpy : Real.cos a ^ 2 + Real.sin a ^ 2 = 1 := Real.cos_sq_add_sin_sq a
    nlinarith [hpy]
  rw [planarRadius]
  simp only [hsum]
  exact Real.sqrt_sq_eq_abs r

theorem addRing_length (radiusFn heightFn : ℝ → ℝ) :
    ∀ (n : ℕ) (s : ℝ), (addRing radiusFn heightFn n s).1.length = n := by
  intro n
  induction n with
  | zero => intro s; simp [addRing]
  | succ m ih => intro s; simp [addRing, ih]

theorem addRing_state_nonneg (radiusFn heightFn : ℝ → ℝ) :
    ∀ (n : ℕ) (s : ℝ), 0 ≤ s → 0 ≤ (addRing radiusFn heightFn n s).2 := by
  intro n
  induction n with
  | zero => intro s hs; simpa [addRing] using hs
  | succ m ih =>
    intro s hs
    simp only [addRing]
    exact ih _ (lcgStep_bounds (lcgStep_bounds (lcgStep_bounds hs).1).1).1

/-- Every node produced by `addRing` from a nonnegative state has planar
radius `radiusFn v` for some drawn value `v ∈ [0, 1)`, provided the radius
is nonnegative there. -/
theorem addRing_planar (radiusFn heightFn : ℝ → ℝ) (lo hi : ℝ)
    (hlo : 0 ≤ lo)
    (hb : ∀ v : ℝ, 0 ≤ v → v < 1 → lo ≤ radiusFn v ∧ radiusFn v < hi) :
    ∀ (n : ℕ) (s : ℝ), 0 ≤ s →
      ∀ nd ∈ (addRing radiusFn heightFn n s).1,
        lo ≤ planarRadius nd.position ∧ planarRadius nd.position < hi := by
  intro n
  induction n with
  | zero => intro s _ nd hnd; simp [addRing] at hnd
  | succ m ih =>
    intro s hs nd hnd
    simp only [addRing, List.mem_cons] at hnd
    rcases hnd with rfl | htail
    · have h1 : 0 ≤ lcgStep s := (lcgStep_bounds hs).1
      have h2 : 0 ≤ lcgStep (lcgStep s) ∧ lcgStep (lcgStep s) < 233280 :=
        lcgStep_bounds h1
      have hv0 : 0 ≤ lcgStep (lcgStep s) / 233280 :=
        div_nonneg h2.1 (by norm_num)
      have hv1 : lcgStep (lcgStep s) / 233280 < 1 := by
        rw [div_lt_one (by norm_num)]
        exact h2.2
      obtain ⟨hrlo, hrhi⟩ := hb _ hv0 hv1
      have habs : |radiusFn (lcgStep (lcgStep s) / 233280)| =
          radiusFn (lcgStep (lcgStep s) / 233280) :=
        abs_of_nonneg (le_trans hlo hrlo)
      constructor
      · rw [planarRadius_cos_sin, habs]
        exact hrlo
      · rw [planarRadius_cos_sin, habs]
        exact hrhi
    · exact ih _ (lcgStep_bounds (lcgStep_bounds (lcgStep_bounds hs).1).1).1
        nd htail

theorem ringPhase_nodes (cfg : Config) (seed : ℝ) :
    (ringPhase cfg seed).1 =
      (addRing centralRadiusFn centralHeightFn cfg.centralNodes.toNat seed).1 ++
      ((addRing middleRadiusFn middleHeightFn cfg.middleNodes.toNat
          (addRing centralRadiusFn centralHeightFn cfg.centralNodes.toNat
            seed).2).1 ++
       (addRing outerRadiusFn outerHeightFn cfg.outerNodes.toNat
          (addRing middleRadiusFn middleHeightFn cfg.middleNodes.toNat
            (addRing centralRadiusFn centralHeightFn cfg.centralNodes.toNat
              seed).2).2).1) :=
  rfl

theorem ringPhase_state_nonneg (cfg : Config) (seed : ℝ) (hs : 0 ≤ seed) :
    0 ≤ (ringPhase cfg seed).2 :=
  addRing_state_nonneg _ _ _ _
    (addRing_state_nonneg _ _ _ _ (addRing_state_nonneg _ _ _ _ hs))

theorem dist3_nonneg (p q : ℝ × ℝ × ℝ) : 0 ≤ dist3 p q :=
  Real.sqrt_nonneg _

theorem pairNextState_nonneg (cfg : Config) (nodes : List Node) (ij : ℕ × ℕ)
    {s : ℝ} (hs : 0 ≤ s) : 0 ≤ pairNextState cfg nodes s ij := by
  rw [pairNextState]
  split
  · exact (lcgStep_bounds hs).1
  · exact hs

/-- When `connectionDistance ≤ 0`, no visited pair passes the distance
test, so edge selection emits nothing. -/
theorem emitRun_nil_of_cd_nonpos (cfg : Config) (nodes : List Node)
    (hcd : cfg.connectionDistance ≤ 0) :
    ∀ (l : List (ℕ × ℕ)) (s : ℝ), (emitRun cfg nodes l s).2 = [] := by
  intro l
  induction l with
  | nil => intro s; rfl
  | cons ij t ih =>
    intro s
    have hd : ¬ dist3 (nodes.getD ij.1 defaultNode).position
        (nodes.getD ij.2 defaultNode).position < cfg.connectionDistance :=
      not_lt.mpr (le_trans hcd (dist3_nonneg _ _))
    simp only [emitRun, pairSel, if_neg hd, List.nil_append]
    exact ih _

/-- When `connectionProbability ≥ 1`, every drawn value lies below the
rejection threshold (values stay in `[0, 1)` from a nonnegative state),
so edge selection emits nothing. -/
theorem emitRun_nil_of_prob_ge_one (cfg : Config) (nodes : List Node)
    (hp : 1 ≤ cfg.connectionProbability) :
    ∀ (l : List (ℕ × ℕ)) (s : ℝ), 0 ≤ s → (emitRun cfg nodes l s).2 = [] := by
  intro l
  induction l with
  | nil => intro s _; rfl
  | cons ij t ih =>
    intro s hs
    have hsel : pairSel cfg nodes s ij = [] := by
      by_cases hd : dist3 (nodes.getD ij.1 defaultNode).position
          (nodes.getD ij.2 defaultNode).position < cfg.connectionDistance
      · have hv : ¬ lcgStep s / 233280 > cfg.connectionProbability := by
          have h1 : lcgValue s < 1 := (lcgValue_bounds hs).2
          have h2 : lcgValue s < cfg.connectionProbability :=
            lt_of_lt_of_le h1 hp
          exact not_lt.mpr (le_of_lt h2)
        rw [pairSel, if_pos hd, if_neg hv]
      · rw [pairSel, if_neg hd]
    simp only [emitRun, hsel, List.nil_append]
    exact ih _ (pairNextState_nonneg cfg nodes ij hs)

/-! ### Evaluation helpers for concrete runs -/

theorem addRing_zero (radiusFn heightFn : ℝ → ℝ) (s : ℝ) :
    addRing radiusFn heightFn 0 s = ([], s) := rfl

theorem addRing_succ (radiusFn heightFn : ℝ → ℝ) (n : ℕ) (s : ℝ) :
    addRing radiusFn heightFn (n + 1) s =
      (⟨(Real.cos (lcgStep s / 233280 * Real.pi * 2) *
          radiusFn (lcgStep (lcgStep s) / 233280),
         heightFn (lcgStep (lcgStep (lcgStep s)) / 233280),
         Real.sin (lcgStep s / 233280 * Real.pi * 2) *
          radiusFn (lcgStep (lcgStep s) / 233280))⟩ ::
        (addRing radiusFn heightFn n (lcgStep (lcgStep (lcgStep s)))).1,
       (addRing radiusFn heightFn n (lcgStep (lcgStep (lcgStep s)))).2) := rfl

/-- Evaluates one generator step at a concrete state, given the truncated
quotient `k`. -/
theorem lcgStep_eval (s r : ℝ) (k : ℤ) (hx : 0 ≤ s * 9301 + 49297)
    (h1 : (k : ℝ) * 233280 ≤ s * 9301 + 49297)
    (h2 : s * 9301 + 49297 < ((k : ℝ) + 1) * 233280)
    (hr : s * 9301 + 49297 - k * 233280 = r) :
    lcgStep s = r := by
  rw [lcgStep, jsMod_eq k (by norm_num) hx h1 h2, hr]

/-- `sFix` is a fixed point of the generator step. -/
theorem lcgStep_sFix : lcgStep sFix = sFix := by
  refine lcgStep_eval sFix sFix 1 ?_ ?_ ?_ ?_ <;>
    rw [sFix] <;> norm_num

theorem lcgStep_one : lcgStep 1 = 58598 := by
  refine lcgStep_eval 1 58598 0 ?_ ?_ ?_ ?_ <;> norm_num

theorem lcgStep_58598 : lcgStep 58598 = 127215 := by
  refine lcgStep_eval 58598 127215 2336 ?_ ?_ ?_ ?_ <;> norm_num

theorem lcgStep_127215 : lcgStep 127215 = 79852 := by
  refine lcgStep_eval 127215 79852 5072 ?_ ?_ ?_ ?_ <;> norm_num

theorem lcgStep_79852 : lcgStep 79852 = 222509 := by
  refine lcgStep_eval 79852 222509 3183 ?_ ?_ ?_ ?_ <;> norm_num

theorem lcgStep_222509 : lcgStep 222509 = 178626 := by
  refine lcgStep_eval 222509 178626 8871 ?_ ?_ ?_ ?_ <;> norm_num

theorem lcgStep_178626 : lcgStep 178626 = 29563 := by
  refine lcgStep_eval 178626 29563 7122 ?_ ?_ ?_ ?_ <;> norm_num

theorem lcgStep_29563 : lcgStep 29563 = 210920 := by
  refine lcgStep_eval 29563 210920 1178 ?_ ?_ ?_ ?_ <;> norm_num

theorem dist3_self (p : ℝ × ℝ × ℝ) : dist3 p p = 0 := by
  simp [dist3]

/-- With `connectionDistance ≤ 0` no visited pair passes the distance
test, so edge selection draws nothing at all. -/
theorem closeCount_cd_nonpos (cfg : Config) (nodes : List Node)
    (hcd : cfg.connectionDistance ≤ 0) :
    ∀ l : List (ℕ × ℕ), closeCount cfg nodes l = 0 := by
  intro l
  induction l with
  | nil => rfl
  | cons ij t ih =>
    have hd : ¬ dist3 (nodes.getD ij.1 defaultNode).position
        (nodes.getD ij.2 defaultNode).position < cfg.connectionDistance :=
      not_lt.mpr (le_trans hcd (dist3_nonneg _ _))
    rw [closeCount, if_neg hd, ih]

/-- The central ring of `cfgPair` from seed `sFix`: two copies of the same
node, and the state still `sFix`. -/
theorem addRing_two_sFix :
    addRing centralRadiusFn centralHeightFn 2 sFix =
      ([nodeFix, nodeFix], sFix) := by
  rw [show (2 : ℕ) = 1 + 1 from rfl, addRing_succ]
  simp only [lcgStep_sFix]
  rw [show (1 : ℕ) = 0 + 1 from rfl, addRing_succ]
  simp only [lcgStep_sFix]
  rfl

theorem ringPhase_cfgPair :
    ringPhase cfgPair sFix = ([nodeFix, nodeFix], sFix) := by
  have e1 : cfgPair.centralNodes.toNat = 2 := rfl
  have e2 : cfgPair.middleNodes.toNat = 0 := rfl
  have e3 : cfgPair.outerNodes.toNat = 0 := rfl
  simp only [ringPhase, e1, e2, e3, addRing_two_sFix]
  rfl

theorem connPairs_cfgPair : connPairs cfgPair sFix = [(0, 1)] := by
  simp only [connPairs, ringPhase_cfgPair]
  rw [show pairList ([nodeFix, nodeFix] : List Node).length = [(0, 1)]
    from rfl]
  have hd : dist3 nodeFix.position nodeFix.position <
      cfgPair.connectionDistance := by
    rw [dist3_self]
    norm_num [cfgPair]
  have hv : lcgStep sFix / 233280 > cfgPair.connectionProbability := by
    rw [lcgStep_sFix]
    show cfgPair.connectionProbability < sFix / 233280
    rw [sFix]
    norm_num [cfgPair]
  simp only [emitRun, pairSel, List.getD_cons_zero, List.getD_cons_succ,
    hd, hv, if_true, List.append_nil]

theorem generate_cfgPair_nodes :
    (generateMindMap cfgPair sFix).nodes = [nodeFix, nodeFix] := by
  show (ringPhase cfgPair sFix).1 = [nodeFix, nodeFix]
  rw [ringPhase_cfgPair]

theorem mkConn_cfgPair : mkConn cfgPair [nodeFix, nodeFix] (0, 1) = connFix := by
  show (⟨nodeFix.position, nodeFix.position,
    max 0.2 (1 - dist3 nodeFix.position nodeFix.position /
      cfgPair.connectionDistance)⟩ : Connection) = connFix
  rw [dist3_self, zero_div, connFix]
  norm_num

theorem generate_cfgPair_connections :
    (generateMindMap cfgPair sFix).connections = [connFix] := by
  rw [generateMindMap_connections, connPairs_cfgPair]
  have hn : (ringPhase cfgPair sFix).1 = [nodeFix, nodeFix] := by
    rw [ringPhase_cfgPair]
  rw [List.map_cons, List.map_nil, hn, mkConn_cfgPair]

/-- The node-list length of `cfgZeroCd` from any seed is `2`. -/
theorem ringPhase_cfgZeroCd_len (s : ℝ) :
    (ringPhase cfgZeroCd s).1.length = 2 := by
  rw [ringPhase_nodes]
  simp only [List.length_append, addRing_length]
  rfl

/-- The generator state after the ring phase of `cfgZeroCd` from seed 1:
six draws from seed 1. -/
theorem ringPhase_cfgZeroCd_state : (ringPhase cfgZeroCd 1).2 = 29563 := by
  show (addRing outerRadiusFn outerHeightFn cfgZeroCd.outerNodes.toNat
    (addRing middleRadiusFn middleHeightFn cfgZeroCd.middleNodes.toNat
      (addRing centralRadiusFn centralHeightFn cfgZeroCd.centralNodes.toNat
        1).2).2).2 = 29563
  rw [show cfgZeroCd.outerNodes.toNat = 0 from rfl,
      show cfgZeroCd.middleNodes.toNat = 0 from rfl,
      show cfgZeroCd.centralNodes.toNat = 2 from rfl]
  rw [show (2 : ℕ) = 1 + 1 from rfl, addRing_succ]
  rw [show (1 : ℕ) = 0 + 1 from rfl, addRing_succ]
  simp only [addRing_zero]
  rw [lcgStep_one, lcgStep_58598, lcgStep_127215, lcgStep_79852,
    lcgStep_222509, lcgStep_178626]

/-- Evaluation of the NaN model at `cfgOne` with the NaN seed: one node
whose three coordinates are NaN, and no connections. -/
theorem generateMindMapN_cfgOne :
    generateMindMapN cfgOne none = ([⟨(none, none, none)⟩], []) := rfl

/-! ### Claim theorems -/

/-- C1.  `generateMindMap` is a pure function of its two arguments: two
calls with identical configuration and seed yield the same node list (in
the same order) and the same connection list. -/
theorem generate_deterministic (cfg1 cfg2 : Config) (s1 s2 : ℝ)
    (hc : cfg1 = cfg2) (hs : s1 = s2) :
    (generateMindMap cfg1 s1).nodes = (generateMindMap cfg2 s2).nodes ∧
    (generateMindMap cfg1 s1).connections =
      (generateMindMap cfg2 s2).connections := by
  subst hc
  subst hs
  exact ⟨rfl, rfl⟩

/-- C5.  The seeded generator implements exactly the stated recurrence:
the state becomes `(s * 9301 + 49297) % 233280` and the returned value is
the new state divided by `233280`; from seed `1` the first returned value
is exactly `58598 / 233280`. -/
theorem lcg_recurrence_golden :
    (∀ s : ℝ, lcgStep s = jsMod (s * 9301 + 49297) 233280 ∧
       lcgValue s = lcgStep s / 233280) ∧
    lcgValue 1 = 58598 / 233280 := by
  refine ⟨fun s => ⟨rfl, rfl⟩, ?_⟩
  have h1 : lcgStep 1 = 58598 := by
    have h : jsMod ((1 : ℝ) * 9301 + 49297) 233280 =
        (1 : ℝ) * 9301 + 49297 - (0 : ℤ) * 233280 :=
      jsMod_eq 0 (by norm_num) (by norm_num) (by norm_num) (by norm_num)
    rw [lcgStep, h]
    norm_num
  rw [lcgValue, h1]

/-- C4.  When `connectionDistance = 0`, the distance test `d < 0` fails at
every visited pair (distances are square roots, hence nonnegative), so no
connection is emitted and no opacity — in particular no quotient
`d / connectionDistance` — is ever computed. -/
theorem cd_zero_no_connections (cfg : Config) (seed : ℝ)
    (hcd : cfg.connectionDistance = 0) :
    (generateMindMap cfg seed).connections = [] := by
  rw [generateMindMap_connections]
  have h : connPairs cfg seed = [] := by
    rw [connPairs]
    exact emitRun_nil_of_cd_nonpos cfg _ (le_of_eq hcd) _ _
  rw [h]
  rfl

/-- C10.  When `connectionProbability ≥ 1`, every drawn value lies in
`[0, 1)` (for a nonnegative seed) and the edge test demands a drawn value
strictly above the threshold, so no connection is emitted. -/
theorem prob_ge_one_no_connections (cfg : Config) (seed : ℝ)
    (hp : 1 ≤ cfg.connectionProbability) (hs : 0 ≤ seed) :
    (generateMindMap cfg seed).connections = [] := by
  rw [generateMindMap_connections]
  have h : connPairs cfg seed = [] := by
    rw [connPairs]
    exact emitRun_nil_of_prob_ge_one cfg _ hp _ _
      (ringPhase_state_nonneg cfg seed hs)
  rw [h]
  rfl

/-- C3 (amended).  A configuration whose three ring counts are all zero or
negative produces an empty node list and an empty connection list, for
every (finite) seed.  (A non-finite seed alone does not produce empty
lists; see the counterexample.) -/
theorem degenerate_counts_empty (cfg : Config) (seed : ℝ)
    (h1 : cfg.centralNodes ≤ 0) (h2 : cfg.middleNodes ≤ 0)
    (h3 : cfg.outerNodes ≤ 0) :
    (generateMindMap cfg seed).nodes = [] ∧
    (generateMindMap cfg seed).connections = [] := by
  have e1 : cfg.centralNodes.toNat = 0 := Int.toNat_of_nonpos h1
  have e2 : cfg.middleNodes.toNat = 0 := Int.toNat_of_nonpos h2
  have e3 : cfg.outerNodes.toNat = 0 := Int.toNat_of_nonpos h3
  have hn : (generateMindMap cfg seed).nodes = [] := by
    show (ringPhase cfg seed).1 = []
    rw [ringPhase_nodes, e1, e2, e3]
    rfl
  refine ⟨hn, ?_⟩
  rw [generateMindMap_connections]
  have hp : connPairs cfg seed = [] := by
    rw [connPairs]
    have hlen : (ringPhase cfg seed).1.length = 0 := by
      rw [show (ringPhase cfg seed).1 = (generateMindMap cfg seed).nodes
        from rfl, hn]
      rfl
    rw [hlen]
    rfl
  rw [hp]
  rfl

/-- C2 (amended).  During edge selection, exactly one value is drawn from
the shared sequence for each visited pair whose distance passes the
`connectionDistance` test, and none for a pair that fails it; the draws
are taken in pair iteration order, so the final state is `lcgStep`
iterated once per passing pair. -/
theorem edge_draws_per_close_pair (cfg : Config) (seed : ℝ) :
    (edgePhase cfg (ringPhase cfg seed).1 (ringPhase cfg seed).2).1 =
      lcgStep^[closeCount cfg (ringPhase cfg seed).1
        (pairList (ringPhase cfg seed).1.length)] (ringPhase cfg seed).2 := by
  rw [edgePhase, edgeFold_emitRun]
  exact emitRun_state cfg _ _ _

/-- C6.  Connections are emitted at index pairs `(i, j)` drawn from the
visited pairs (`i < j`, each unordered pair visited once): no connection
joins a node with itself and no unordered pair of nodes yields two
connections. -/
theorem edges_no_self_no_dup (cfg : Config) (seed : ℝ) :
    (generateMindMap cfg seed).connections =
      (connPairs cfg seed).map (mkConn cfg (ringPhase cfg seed).1) ∧
    (∀ ij ∈ connPairs cfg seed, ij.1 < ij.2) ∧
    (connPairs cfg seed).Nodup := by
  have hsub : List.Sublist (connPairs cfg seed)
      (pairList (ringPhase cfg seed).1.length) := by
    rw [connPairs]
    exact emitRun_sublist cfg _ _ _
  refine ⟨generateMindMap_connections cfg seed, ?_, ?_⟩
  · intro ij hij
    exact (pairList_mem (hsub.subset hij)).1
  · exact hsub.nodup (pairList_nodup _)

/-- C7.  Every emitted connection's endpoint distance is strictly below
`connectionDistance`. -/
theorem edge_distance_bound (cfg : Config) (seed : ℝ)
    (hcd : 0 < cfg.connectionDistance) :
    ∀ c ∈ (generateMindMap cfg seed).connections,
      dist3 c.fromPos c.toPos < cfg.connectionDistance := by
  have _ := hcd
  intro c hc
  rw [generateMindMap_connections, List.mem_map] at hc
  obtain ⟨ij, hij, rfl⟩ := hc
  have hclose := emitRun_close cfg (ringPhase cfg seed).1
    (pairList (ringPhase cfg seed).1.length) (ringPhase cfg seed).2 ij
    (by rw [connPairs] at hij; exact hij)
  simpa [mkConn] using hclose

/-- C8.  Every emitted connection's opacity is exactly
`max 0.2 (1 - d / connectionDistance)` for its endpoint distance `d`,
lies in `[0.2, 1]`, and equals exactly `1` when the endpoints coincide
(`d = 0`). -/
theorem edge_opacity_spec (cfg : Config) (seed : ℝ) :
    ∀ c ∈ (generateMindMap cfg seed).connections,
      c.opacity =
        max 0.2 (1 - dist3 c.fromPos c.toPos / cfg.connectionDistance) ∧
      0.2 ≤ c.opacity ∧ c.opacity ≤ 1 ∧
      (dist3 c.fromPos c.toPos = 0 → c.opacity = 1) := by
  intro c hc
  rw [generateMindMap_connections, List.mem_map] at hc
  obtain ⟨ij, hij, rfl⟩ := hc
  have hclose := emitRun_close cfg (ringPhase cfg seed).1
    (pairList (ringPhase cfg seed).1.length) (ringPhase cfg seed).2 ij
    (by rw [connPairs] at hij; exact hij)
  have hd0 : 0 ≤ dist3
      ((ringPhase cfg seed).1.getD ij.1 defaultNode).position
      ((ringPhase cfg seed).1.getD ij.2 defaultNode).position :=
    dist3_nonneg _ _
  have hcd : 0 < cfg.connectionDistance := lt_of_le_of_lt hd0 hclose
  have hdiv : 0 ≤ dist3
      ((ringPhase cfg seed).1.getD ij.1 defaultNode).position
      ((ringPhase cfg seed).1.getD ij.2 defaultNode).position /
        cfg.connectionDistance := div_nonneg hd0 hcd.le
  refine ⟨rfl, le_max_left _ _, ?_, ?_⟩
  · show max 0.2 (1 - _ / cfg.connectionDistance) ≤ 1
    refine max_le (by norm_num) ?_
    linarith
  · intro h0
    show max 0.2 (1 - _ / cfg.connectionDistance) = (1 : ℝ)
    rw [show dist3 ((ringPhase cfg seed).1.getD ij.1 defaultNode).position
        ((ringPhase cfg seed).1.getD ij.2 defaultNode).position = 0 from h0]
    norm_num

/-- C9.  For a nonnegative seed, the planar radius of every node in the
first `centralNodes` positions lies in `[0.5, 2)`, of the next
`middleNodes` in `[3, 5)`, and of the remaining `outerNodes` in `[5, 9)`. -/
theorem ring_radius_containment (cfg : Config) (seed : ℝ) (hs : 0 ≤ seed) :
    (∀ nd ∈ (generateMindMap cfg seed).nodes.take cfg.centralNodes.toNat,
       0.5 ≤ planarRadius nd.position ∧ planarRadius nd.position < 2) ∧
    (∀ nd ∈ ((generateMindMap cfg seed).nodes.drop
        cfg.centralNodes.toNat).take cfg.middleNodes.toNat,
       3 ≤ planarRadius nd.position ∧ planarRadius nd.position < 5) ∧
    (∀ nd ∈ (generateMindMap cfg seed).nodes.drop
        (cfg.centralNodes.toNat + cfg.middleNodes.toNat),
       5 ≤ planarRadius nd.position ∧ planarRadius nd.position < 9) := by
  have hnodes : (generateMindMap cfg seed).nodes =
      (addRing centralRadiusFn centralHeightFn cfg.centralNodes.toNat
        seed).1 ++
      ((addRing middleRadiusFn middleHeightFn cfg.middleNodes.toNat
          (addRing centralRadiusFn centralHeightFn cfg.centralNodes.toNat
            seed).2).1 ++
       (addRing outerRadiusFn outerHeightFn cfg.outerNodes.toNat
          (addRing middleRadiusFn middleHeightFn cfg.middleNodes.toNat
            (addRing centralRadiusFn centralHeightFn cfg.centralNodes.toNat
              seed).2).2).1) := ringPhase_nodes cfg seed
  have hs1 : 0 ≤ (addRing centralRadiusFn centralHeightFn
      cfg.centralNodes.toNat seed).2 := addRing_state_nonneg _ _ _ _ hs
  have hs2 : 0 ≤ (addRing middleRadiusFn middleHeightFn
      cfg.middleNodes.toNat (addRing centralRadiusFn centralHeightFn
        cfg.centralNodes.toNat seed).2).2 :=
    addRing_state_nonneg _ _ _ _ hs1
  have hl1 : (addRing centralRadiusFn centralHeightFn cfg.centralNodes.toNat
      seed).1.length = cfg.centralNodes.toNat := addRing_length _ _ _ _
  have hl2 : (addRing middleRadiusFn middleHeightFn cfg.middleNodes.toNat
      (addRing centralRadiusFn centralHeightFn cfg.centralNodes.toNat
        seed).2).1.length = cfg.middleNodes.toNat := addRing_length _ _ _ _
  refine ⟨?_, ?_, ?_⟩
  · intro nd hnd
    rw [hnodes, List.take_left' hl1] at hnd
    refine addRing_planar centralRadiusFn centralHeightFn 0.5 2 (by norm_num)
      ?_ _ _ hs nd hnd
    intro v hv0 hv1
    constructor
    · rw [centralRadiusFn]
      nlinarith
    · rw [centralRadiusFn]
      nlinarith
  · intro nd hnd
    rw [hnodes, List.drop_left' hl1, List.take_left' hl2] at hnd
    refine addRing_planar middleRadiusFn middleHeightFn 3 5 (by norm_num)
      ?_ _ _ hs1 nd hnd
    intro v hv0 hv1
    constructor
    · rw [middleRadiusFn]
      nlinarith
    · rw [middleRadiusFn]
      nlinarith
  · intro nd hnd
    rw [hnodes, ← List.append_assoc, List.drop_left'
      (by rw [List.length_append, hl1, hl2])] at hnd
    refine addRing_planar outerRadiusFn outerHeightFn 5 9 (by norm_num)
      ?_ _ _ hs2 nd hnd
    intro v hv0 hv1
    constructor
    · rw [outerRadiusFn]
      nlinarith
    · rw [outerRadiusFn]
      nlinarith

/-! ### Witnesses and counterexamples -/

/-- C1 witness: the determinism theorem applied at a concrete
configuration and seed. -/
theorem generate_deterministic_witness :
    (generateMindMap cfgPair sFix).nodes =
      (generateMindMap cfgPair sFix).nodes ∧
    (generateMindMap cfgPair sFix).connections =
      (generateMindMap cfgPair sFix).connections :=
  generate_deterministic cfgPair cfgPair sFix sFix rfl rfl

/-- C2 counterexample: with two coplanar central nodes and
`connectionDistance = 0` from seed 1, the visited pair `(0, 1)` fails the
distance test, so — because `&&` short-circuits — no value is drawn for
it: the final state of edge selection is not one `lcgStep` per visited
pair.  (It equals the post-ring state `29563`, while one draw per pair
would give `lcgStep 29563 = 210920`.) -/
theorem edge_draw_every_pair_refuted :
    ¬ (edgePhase cfgZeroCd (ringPhase cfgZeroCd 1).1
        (ringPhase cfgZeroCd 1).2).1 =
      lcgStep^[(pairList (ringPhase cfgZeroCd 1).1.length).length]
        (ringPhase cfgZeroCd 1).2 := by
  have hcd : cfgZeroCd.connectionDistance ≤ 0 := le_of_eq rfl
  have hfold : (edgePhase cfgZeroCd (ringPhase cfgZeroCd 1).1
      (ringPhase cfgZeroCd 1).2).1 = (ringPhase cfgZeroCd 1).2 := by
    rw [edgePhase, edgeFold_emitRun]
    show (emitRun cfgZeroCd (ringPhase cfgZeroCd 1).1
      (pairList (ringPhase cfgZeroCd 1).1.length)
      (ringPhase cfgZeroCd 1).2).1 = (ringPhase cfgZeroCd 1).2
    rw [emitRun_state, closeCount_cd_nonpos cfgZeroCd _ hcd]
    rfl
  intro h
  rw [hfold, ringPhase_cfgZeroCd_len, ringPhase_cfgZeroCd_state] at h
  rw [show (pairList 2).length = 1 from rfl, Function.iterate_one,
    lcgStep_29563] at h
  norm_num at h

/-- C3 counterexample: with one central node and a non-finite (NaN) seed,
`generateMindMap` still pushes one node (all coordinates NaN) — the node
list is not empty, contradicting the claim for non-finite seeds. -/
theorem nonfinite_seed_nodes_not_empty :
    (generateMindMapN cfgOne none).1 ≠ [] := by
  simp [generateMindMapN_cfgOne]

/-- C3 witness: the amended theorem applied at a configuration whose ring
counts are `0`, `-3`, `0`. -/
theorem degenerate_counts_empty_witness :
    cfgNeg.centralNodes ≤ 0 ∧ cfgNeg.middleNodes ≤ 0 ∧
    cfgNeg.outerNodes ≤ 0 ∧
    (generateMindMap cfgNeg 7).nodes = [] ∧
    (generateMindMap cfgNeg 7).connections = [] := by
  have h := degenerate_counts_empty cfgNeg 7 (by decide) (by decide)
    (by decide)
  exact ⟨by decide, by decide, by decide, h.1, h.2⟩

/-- C4 witness: the zero-`connectionDistance` theorem applied at a
concrete configuration and seed. -/
theorem cd_zero_no_connections_witness :
    cfgZeroCd.connectionDistance = 0 ∧
    (generateMindMap cfgZeroCd 5).connections = [] :=
  ⟨rfl, cd_zero_no_connections cfgZeroCd 5 rfl⟩

/-- C6 witness: at `cfgPair` from seed `sFix` the pair `(0, 1)` emits a
connection, and the theorem yields `0 < 1` for it. -/
theorem edges_no_self_no_dup_witness :
    (0, 1) ∈ connPairs cfgPair sFix ∧ (0 : ℕ) < 1 := by
  have hmem : ((0 : ℕ), (1 : ℕ)) ∈ connPairs cfgPair sFix := by
    rw [connPairs_cfgPair]
    exact List.mem_singleton_self _
  exact ⟨hmem, (edges_no_self_no_dup cfgPair sFix).2.1 (0, 1) hmem⟩

/-- C7 witness: the emitted connection of `cfgPair` from seed `sFix`,
with its endpoint distance strictly below `connectionDistance = 1`. -/
theorem edge_distance_bound_witness :
    0 < cfgPair.connectionDistance ∧
    connFix ∈ (generateMindMap cfgPair sFix).connections ∧
    dist3 connFix.fromPos connFix.toPos < cfgPair.connectionDistance := by
  have hcd : 0 < cfgPair.connectionDistance := by norm_num [cfgPair]
  have hmem : connFix ∈ (generateMindMap cfgPair sFix).connections := by
    rw [generate_cfgPair_connections]
    exact List.mem_singleton_self _
  exact ⟨hcd, hmem, edge_distance_bound cfgPair sFix hcd connFix hmem⟩

/-- C8 witness: the emitted connection of `cfgPair` from seed `sFix` has
coincident endpoints (distance `0`) and opacity exactly `1`. -/
theorem edge_opacity_spec_witness :
    connFix ∈ (generateMindMap cfgPair sFix).connections ∧
    dist3 connFix.fromPos connFix.toPos = 0 ∧
    connFix.opacity = 1 := by
  have hmem : connFix ∈ (generateMindMap cfgPair sFix).connections := by
    rw [generate_cfgPair_connections]
    exact List.mem_singleton_self _
  have hd : dist3 connFix.fromPos connFix.toPos = 0 := dist3_self _
  exact ⟨hmem, hd, (edge_opacity_spec cfgPair sFix connFix hmem).2.2.2 hd⟩

/-- C9 witness: the first central-ring node of `cfgPair` from seed `sFix`
has planar radius in `[0.5, 2)`. -/
theorem ring_radius_containment_witness :
    0 ≤ sFix ∧
    nodeFix ∈ (generateMindMap cfgPair sFix).nodes.take
      cfgPair.centralNodes.toNat ∧
    0.5 ≤ planarRadius nodeFix.position ∧
    planarRadius nodeFix.position < 2 := by
  have hs : 0 ≤ sFix := by rw [sFix]; norm_num
  have hmem : nodeFix ∈ (generateMindMap cfgPair sFix).nodes.take
      cfgPair.centralNodes.toNat := by
    rw [generate_cfgPair_nodes]
    show nodeFix ∈ [nodeFix, nodeFix]
    exact List.mem_cons_self _ _
  obtain ⟨ha, hb⟩ := (ring_radius_containment cfgPair sFix hs).1 nodeFix hmem
  exact ⟨hs, hmem, ha, hb⟩

/-- C10 witness: the `connectionProbability = 1` theorem applied at a
concrete configuration and seed. -/
theorem prob_ge_one_no_connections_witness :
    1 ≤ cfgProb.connectionProbability ∧ (0 : ℝ) ≤ 3 ∧
    (generateMindMap cfgProb 3).connections = [] := by
  have hp : 1 ≤ cfgProb.connectionProbability := by norm_num [cfgProb]
  exact ⟨hp, by norm_num,
    prob_ge_one_no_connections cfgProb 3 hp (by norm_num)⟩

end

end MindMapGen
